import Mathlib

/-!
Verification development for the `ipld-proofs` crate: a shallow embedding of
the link scanner (`src/link_scanner.rs`), the proof object (`src/proof.rs`)
and the proof generator / recording blockstore (`src/generator.rs`), together
with theorems settling the specification claims.

Modelling conventions:
* Byte sequences are `List Nat` whose elements are bytes (`< 256`); reads mask
  with `% 256` so out-of-range elements cannot arise from reads.
* The content-identifier primitive (the `cid` crate) is external to the core,
  so the hash `cid::new_from_cbor` and the parser `Cid::try_from` are taken as
  parameters (`newFromCbor`, `cidTryFrom`); concrete stand-ins are supplied
  for evaluation witnesses.
* A byte reader (`std::io::Cursor`) is the list of not-yet-consumed bytes; a
  forward relative seek is `List.drop` (seeking past the end succeeds and the
  next read fails, exactly as for `Cursor`).
* Rust panics (out-of-bounds slice indexing, `.expect` on `None`) are modelled
  as an explicit `panic` outcome, distinct from ordinary error returns.
* The witness table is a `HashMap<Cid, Vec<u8>>`; its iteration order is
  unspecified in Rust, so it is modelled as an association list whose order
  makes one possible iteration order explicit.
-/

set_option maxRecDepth 16384

namespace IpldProofs

/-- Raw block bytes. -/
abbrev Bytes := List Nat

/-- A content identifier; opaque fixed-width bytes (spec section 3). -/
abbrev Cid := List Nat

/-- Big-endian value of a byte list (`byteorder::BigEndian::read_uN`). -/
def beVal (l : List Nat) : Nat := l.foldl (fun a b => a * 256 + b % 256) 0

/-- Embedding of `cbor_read_header_buf` (src/link_scanner.rs:106-151).
Reads one CBOR header from the stream, returning the major type, the decoded
length/value, and the remaining stream; `none` models the `Err` returns
(truncated input, non-canonical encoding, invalid low code 28-31). -/
def cbor_read_header_buf : Bytes → Option ((Nat × Nat) × Bytes)
  | [] => none
  | first :: rest =>
    let maj := first % 256 / 32
    let low := first % 256 % 32
    if low < 24 then some ((maj, low), rest)
    else if low = 24 then
      match rest with
      | [] => none
      | v :: r => if v % 256 < 24 then none else some ((maj, v % 256), r)
    else if low = 25 then
      if rest.length < 2 then none
      else
        let val := beVal (rest.take 2)
        if val ≤ 255 then none else some ((maj, val), rest.drop 2)
    else if low = 26 then
      if rest.length < 4 then none
      else
        let val := beVal (rest.take 4)
        if val ≤ 65535 then none else some ((maj, val), rest.drop 4)
    else if low = 27 then
      if rest.length < 8 then none
      else
        let val := beVal (rest.take 8)
        if val ≤ 4294967295 then none else some ((maj, val), rest.drop 8)
    else none

/-- Reading a header consumes at least one byte of the stream. -/
theorem cbor_read_header_buf_length {bs : Bytes} {m e : Nat} {rest : Bytes}
    (h : cbor_read_header_buf bs = some ((m, e), rest)) :
    rest.length < bs.length := by
  match bs with
  | [] => simp [cbor_read_header_buf] at h
  | first :: tl =>
    simp only [cbor_read_header_buf] at h
    split at h
    · simp only [Option.some.injEq, Prod.mk.injEq] at h
      obtain ⟨-, h⟩ := h
      simp [← h]
    · split at h
      · match tl with
        | [] => simp at h
        | v :: r =>
          simp only at h
          split at h
          · simp at h
          · simp only [Option.some.injEq, Prod.mk.injEq] at h
            obtain ⟨-, h⟩ := h
            simp only [← h, List.length_cons]
            omega
      · split at h
        · split at h
          · simp at h
          · split at h
            · simp at h
            · simp only [Option.some.injEq, Prod.mk.injEq] at h
              obtain ⟨-, h⟩ := h
              simp only [← h, List.length_drop, List.length_cons]
              omega
        · split at h
          · split at h
            · simp at h
            · split at h
              · simp at h
              · simp only [Option.some.injEq, Prod.mk.injEq] at h
                obtain ⟨-, h⟩ := h
                simp only [← h, List.length_drop, List.length_cons]
                omega
          · split at h
            · split at h
              · simp at h
              · split at h
                · simp at h
                · simp only [Option.some.injEq, Prod.mk.injEq] at h
                  obtain ⟨-, h⟩ := h
                  simp only [← h, List.length_drop, List.length_cons]
                  omega
            · simp at h

/-- Result of one `LinkScanner::next` call (src/link_scanner.rs:51-96).
`panic` models the out-of-bounds slice panics reachable in the tag-42 branch
(scratch buffer of 70 bytes indexed by `..extra` with `extra` up to 100, and
`scratch[1..0]` when `extra = 0`). -/
inductive NextRes where
  | panic : NextRes
  | done : NextRes
  | yield : Cid → Nat → Bytes → NextRes
deriving DecidableEq, Repr

section Scanner

variable (cidTryFrom : Bytes → Option Cid)

/-- Embedding of `LinkScanner::next` (src/link_scanner.rs:51-96).
State is the `remaining` item counter plus the unread bytes. Mirrors the
Rust loop: headers are read with `cbor_read_header_buf`; major types 0/1/7
consume an item, 2/3 skip `extra` bytes, arrays and maps extend `remaining`,
tag 42 reads a byte-string CID payload. Any `Err`/`None` on the way ends the
sequence (`.done`); the slice panics are surfaced as `.panic`. -/
def scannerNext (rem : Nat) (bs : Bytes) : NextRes :=
  if rem = 0 then .done
  else
    match h : cbor_read_header_buf bs with
    | none => .done
    | some ((maj, extra), rest) =>
      if maj = 0 ∨ maj = 1 ∨ maj = 7 then
        scannerNext (rem - 1) rest
      else if maj = 2 ∨ maj = 3 then
        scannerNext (rem - 1) (rest.drop extra)
      else if maj = 6 then
        if extra = 42 then
          match cbor_read_header_buf rest with
          | none => .done
          | some ((maj2, extra2), rest2) =>
            if maj2 ≠ 2 ∨ extra2 > 100 then .done
            else if extra2 > 70 then .panic
            else if rest2.length < extra2 then .done
            else if extra2 = 0 then .panic
            else
              match cidTryFrom ((rest2.take extra2).drop 1) with
              | none => .done
              | some c => .yield c (rem - 1) (rest2.drop extra2)
        else scannerNext rem rest
      else if maj = 4 then
        scannerNext (rem - 1 + extra) rest
      else if maj = 5 then
        scannerNext (rem - 1 + extra * 2) rest
      else .done
termination_by bs.length
decreasing_by
  all_goals
    first
      | exact cbor_read_header_buf_length h
      | · have := cbor_read_header_buf_length h
          simp only [List.length_drop]
          omega

end Scanner

/-- A yielded state's unread bytes are strictly shorter than the input's:
every yield consumes at least the tag header. -/
theorem scannerNext_yield_length (cidTryFrom : Bytes → Option Cid) :
    ∀ (n rem : Nat) (bs : Bytes) {c : Cid} {rem' : Nat} {bs' : Bytes},
      bs.length ≤ n → scannerNext cidTryFrom rem bs = .yield c rem' bs' →
      bs'.length < bs.length := by
  intro n
  induction n with
  | zero =>
    intro rem bs c rem' bs' hle h
    have hbs : bs = [] := List.length_eq_zero.mp (Nat.le_zero.mp hle)
    subst hbs
    rw [scannerNext] at h
    split at h
    · simp at h
    · simp [cbor_read_header_buf] at h
  | succ n ih =>
    intro rem bs c rem' bs' hle h
    rw [scannerNext] at h
    split at h
    · simp at h
    · split at h
      · simp at h
      · rename_i maj extra rest hdr
        have hrest : rest.length < bs.length := cbor_read_header_buf_length hdr
        split at h
        · exact lt_trans (ih rem.pred rest (by omega) h) hrest
        · split at h
          · refine lt_of_lt_of_le (ih rem.pred (rest.drop extra) ?_ h) ?_
            · simp only [List.length_drop]; omega
            · simp only [List.length_drop]; omega
          · split at h
            · split at h
              · split at h
                · simp at h
                · rename_i maj2 extra2 rest2 hdr2
                  have hrest2 : rest2.length < rest.length :=
                    cbor_read_header_buf_length hdr2
                  split at h
                  · simp at h
                  · split at h
                    · simp at h
                    · split at h
                      · simp at h
                      · split at h
                        · simp at h
                        · split at h
                          · simp at h
                          · simp only [NextRes.yield.injEq] at h
                            obtain ⟨-, -, h⟩ := h
                            simp only [← h, List.length_drop]
                            omega
              · exact lt_trans (ih rem rest (by omega) h) hrest
            · split at h
              · exact lt_trans (ih (rem - 1 + extra) rest (by omega) h) hrest
              · split at h
                · exact lt_trans (ih (rem - 1 + extra * 2) rest (by omega) h)
                    hrest
                · simp at h

section ScanTrace

variable (cidTryFrom : Bytes → Option Cid)

/-- The scan trace of a block: the list of CIDs the scanner yields from the
given state, in document order, paired with `true` when the scan ends in one
of the slice panics and `false` when it ends silently (`None`). -/
def collectLinksP (rem : Nat) (bs : Bytes) : List Cid × Bool :=
  match h : scannerNext cidTryFrom rem bs with
  | .panic => ([], true)
  | .done => ([], false)
  | .yield c rem' bs' =>
    let t := collectLinksP rem' bs'
    (c :: t.1, t.2)
termination_by bs.length
decreasing_by
  exact scannerNext_yield_length cidTryFrom bs.length rem bs (le_refl _) h

/-- The links the scanner yields for a whole block (`LinkScanner::from`
starts with `remaining = 1`, src/link_scanner.rs:17-24). -/
def collectLinks (rem : Nat) (bs : Bytes) : List Cid :=
  (collectLinksP cidTryFrom rem bs).1

/-- Unfolding equation for a panicking scan step. -/
theorem collectLinksP_panic {rem : Nat} {bs : Bytes}
    (h : scannerNext cidTryFrom rem bs = .panic) :
    collectLinksP cidTryFrom rem bs = ([], true) := by
  rw [collectLinksP]
  split
  · rfl
  · rename_i heq
    rw [h] at heq
    cases heq
  · rename_i c rem' bs' heq
    rw [h] at heq
    cases heq

/-- Unfolding equation for a silently ending scan step. -/
theorem collectLinksP_done {rem : Nat} {bs : Bytes}
    (h : scannerNext cidTryFrom rem bs = .done) :
    collectLinksP cidTryFrom rem bs = ([], false) := by
  rw [collectLinksP]
  split
  · rename_i heq
    rw [h] at heq
    cases heq
  · rfl
  · rename_i c rem' bs' heq
    rw [h] at heq
    cases heq

/-- Unfolding equation for a yielding scan step. -/
theorem collectLinksP_yield {rem : Nat} {bs : Bytes} {c : Cid} {rem' : Nat}
    {bs' : Bytes} (h : scannerNext cidTryFrom rem bs = .yield c rem' bs') :
    collectLinksP cidTryFrom rem bs =
      ((c :: (collectLinksP cidTryFrom rem' bs').1),
        (collectLinksP cidTryFrom rem' bs').2) := by
  rw [collectLinksP]
  split
  · rename_i heq
    rw [h] at heq
    cases heq
  · rename_i heq
    rw [h] at heq
    cases heq
  · rename_i c0 rem0 bs0 heq
    rw [h] at heq
    cases heq
    rfl

/-- Non-dependent unfolding equation for `collectLinksP`, suitable for
rewriting-based evaluation. -/
theorem collectLinksP_eq (rem : Nat) (bs : Bytes) :
    collectLinksP cidTryFrom rem bs =
      match scannerNext cidTryFrom rem bs with
      | .panic => ([], true)
      | .done => ([], false)
      | .yield c rem' bs' =>
        ((c :: (collectLinksP cidTryFrom rem' bs').1),
          (collectLinksP cidTryFrom rem' bs').2) := by
  cases h : scannerNext cidTryFrom rem bs with
  | panic => rw [collectLinksP_panic cidTryFrom h]
  | done => rw [collectLinksP_done cidTryFrom h]
  | yield c rem' bs' => rw [collectLinksP_yield cidTryFrom h]

end ScanTrace

/-- Result of iterating a `LinkScanner` in search of one target CID. -/
inductive ScanFindRes where
  | panic : ScanFindRes
  | found : ScanFindRes
  | noMatch : List Cid → ScanFindRes
deriving DecidableEq, Repr

section ScanFor

variable (cidTryFrom : Bytes → Option Cid)

/-- One pass of iterating a `LinkScanner` looking for the CID `t`: models
both the `for link in scanner { if link == current_cid ... }` loop of
`generate_proof_raw` (src/generator.rs:135-147) and the
`.any(|c| c == prev_cid)` call of `Proof::validate` (src/proof.rs:83).
The iterator yields the trace links in order and the caller short-circuits
at the first link equal to `t`; a panic can only happen after all yields of
the trace, so the iteration panics exactly when `t` is absent from the trace
and the trace ends in a panic, and otherwise either finds `t` or completes
with the full yield list (the generator's `link_buffer`). The literal
one-link-at-a-time loop is `scanForIter` below, proved equal in
`scanForIter_eq_scanFor`. -/
def scanFor (t : Cid) (rem : Nat) (bs : Bytes) : ScanFindRes :=
  let tr := collectLinksP cidTryFrom rem bs
  if t ∈ tr.1 then .found
  else if tr.2 then .panic
  else .noMatch tr.1

/-- Links collected in a completed, match-free pass are each found by a
later search for them over the same block. -/
theorem scanFor_found_of_noMatch_mem {t c : Cid} {rem : Nat} {bs : Bytes}
    {ls : List Cid} (h : scanFor cidTryFrom t rem bs = .noMatch ls)
    (hc : c ∈ ls) : scanFor cidTryFrom c rem bs = .found := by
  simp only [scanFor] at h ⊢
  split_ifs at h with h1 h2 <;> simp_all

/-- The scanner yields nothing from an empty stream. -/
theorem scannerNext_nil (rem : Nat) :
    scannerNext cidTryFrom rem [] = .done := by
  rw [scannerNext]
  split
  · rfl
  · rfl

/-- Literal recursive embedding of the search-for-`t` iterator loop
(src/generator.rs:135-147 and src/proof.rs:83): pull one link at a time,
short-circuit on a match, otherwise buffer the link and continue. Proved
equal to the trace-based `scanFor` below. -/
def scanForIter (t : Cid) (rem : Nat) (bs : Bytes) : ScanFindRes :=
  match h : scannerNext cidTryFrom rem bs with
  | .panic => .panic
  | .done => .noMatch []
  | .yield c rem' bs' =>
    if c = t then .found
    else
      match scanForIter t rem' bs' with
      | .panic => .panic
      | .found => .found
      | .noMatch ls => .noMatch (c :: ls)
termination_by bs.length
decreasing_by
  exact scannerNext_yield_length cidTryFrom bs.length rem bs (le_refl _) h

/-- Unfolding equation for `scanForIter` at a panicking step. -/
theorem scanForIter_panic {t : Cid} {rem : Nat} {bs : Bytes}
    (h : scannerNext cidTryFrom rem bs = .panic) :
    scanForIter cidTryFrom t rem bs = .panic := by
  rw [scanForIter]
  split
  · rfl
  · rename_i heq
    rw [h] at heq
    cases heq
  · rename_i c rem' bs' heq
    rw [h] at heq
    cases heq

/-- Unfolding equation for `scanForIter` at a silently ending step. -/
theorem scanForIter_done {t : Cid} {rem : Nat} {bs : Bytes}
    (h : scannerNext cidTryFrom rem bs = .done) :
    scanForIter cidTryFrom t rem bs = .noMatch [] := by
  rw [scanForIter]
  split
  · rename_i heq
    rw [h] at heq
    cases heq
  · rfl
  · rename_i c rem' bs' heq
    rw [h] at heq
    cases heq

/-- Unfolding equation for `scanForIter` at a yielding step. -/
theorem scanForIter_yield {t c : Cid} {rem rem' : Nat} {bs bs' : Bytes}
    (h : scannerNext cidTryFrom rem bs = .yield c rem' bs') :
    scanForIter cidTryFrom t rem bs =
      if c = t then .found
      else
        match scanForIter cidTryFrom t rem' bs' with
        | .panic => .panic
        | .found => .found
        | .noMatch ls => .noMatch (c :: ls) := by
  rw [scanForIter]
  split
  · rename_i heq
    rw [h] at heq
    cases heq
  · rename_i heq
    rw [h] at heq
    cases heq
  · rename_i c0 rem0 bs0 heq
    rw [h] at heq
    cases heq
    rfl

/-- The literal iterator loop agrees with the trace-based formulation: a
panic can only occur after every yield of the trace, so short-circuiting at
the first match and classifying by the full trace coincide. -/
theorem scanForIter_eq_scanFor (t : Cid) :
    ∀ (n rem : Nat) (bs : Bytes), bs.length ≤ n →
      scanForIter cidTryFrom t rem bs = scanFor cidTryFrom t rem bs := by
  intro n
  induction n with
  | zero =>
    intro rem bs hle
    have hbs : bs = [] := List.length_eq_zero.mp (Nat.le_zero.mp hle)
    subst hbs
    have hd := scannerNext_nil cidTryFrom rem
    rw [scanForIter_done cidTryFrom hd]
    unfold scanFor
    rw [collectLinksP_done cidTryFrom hd]
    simp
  | succ n ih =>
    intro rem bs hle
    cases hs : scannerNext cidTryFrom rem bs with
    | panic =>
      rw [scanForIter_panic cidTryFrom hs]
      unfold scanFor
      rw [collectLinksP_panic cidTryFrom hs]
      simp
    | done =>
      rw [scanForIter_done cidTryFrom hs]
      unfold scanFor
      rw [collectLinksP_done cidTryFrom hs]
      simp
    | yield c rem' bs' =>
      have hlt : bs'.length < bs.length :=
        scannerNext_yield_length cidTryFrom bs.length rem bs (le_refl _) hs
      have IH := ih rem' bs' (by omega)
      rw [scanForIter_yield cidTryFrom hs]
      unfold scanFor
      rw [collectLinksP_yield cidTryFrom hs]
      by_cases hc : c = t
      · subst hc
        simp
      · have hct : ¬(t = c) := fun hh => hc hh.symm
        rw [if_neg hc, IH]
        unfold scanFor
        by_cases hmem : t ∈ (collectLinksP cidTryFrom rem' bs').1
        · simp [hmem, hct]
        · by_cases hp : (collectLinksP cidTryFrom rem' bs').2
          · simp [hmem, hct, hp]
          · simp [hmem, hct, hp]

end ScanFor

/-- Result of `Proof::validate` (src/proof.rs:73-95): success, the
`InvalidProof { link, data }` error, or a panic (scanner slice panic or the
`.expect` on an empty proof). -/
inductive ValidateRes where
  | ok : ValidateRes
  | invalidProof : Cid → Bytes → ValidateRes
  | panic : ValidateRes
deriving DecidableEq, Repr

section ProofObject

variable (cidTryFrom : Bytes → Option Cid) (newFromCbor : Bytes → Nat → Cid)
variable (defCode : Nat)

/-- The loop of `Proof::validate` (src/proof.rs:81-92), after the first
node's CID has been computed: each subsequent node must contain a link to
the previous node's CID. -/
def validateLoop : Cid → List Bytes → ValidateRes
  | _, [] => .ok
  | prev, node :: rest =>
    match scanFor cidTryFrom prev 1 node with
    | .panic => .panic
    | .found => validateLoop (newFromCbor node defCode) rest
    | .noMatch _ => .invalidProof prev node

/-- Embedding of `Proof::validate` (src/proof.rs:73-95). `panic` on the
empty node list models the `.expect("empty proof should be impossible to
create")` on `nodes.first()`. -/
def validateProof : List Bytes → ValidateRes
  | [] => .panic
  | n :: rest =>
    validateLoop cidTryFrom newFromCbor defCode (newFromCbor n defCode) rest

/-- Embedding of `Proof::root` (src/proof.rs:97-104): the CID of the last
node's bytes; `none` models the `.expect` panic on an empty proof. -/
def proofRoot (nodes : List Bytes) : Option Cid :=
  nodes.getLast?.map (fun b => newFromCbor b defCode)

end ProofObject

/-- Association-list lookup with the key on the left (models
`HashMap::get`/`contains_key`). -/
def lookupBy {β : Type} : List (Cid × β) → Cid → Option β
  | [], _ => none
  | (k, v) :: rest, c => if k = c then some v else lookupBy rest c

/-- Association-list removal returning the removed value (models
`HashMap::remove`). -/
def removeBy {β : Type} : List (Cid × β) → Cid → Option (β × List (Cid × β))
  | [], _ => none
  | (k, v) :: rest, c =>
    if k = c then some (v, rest)
    else
      match removeBy rest c with
      | none => none
      | some (v', rest') => some (v', (k, v) :: rest')

/-- First-writer-wins insertion: `map.entry(k).or_insert_with(|| v)`. -/
def insertIfAbsent {β : Type} (l : List (Cid × β)) (c : Cid) (v : β) :
    List (Cid × β) :=
  if (lookupBy l c).isSome then l else l ++ [(c, v)]

/-- The witness table (`visited: RefCell<HashMap<Cid, Vec<u8>>>`,
src/generator.rs:63), as an association list fixing one iteration order. -/
abbrev Table := List (Cid × Bytes)

/-- The generator's `scan_cache: HashMap<Cid, (Cid, Vec<u8>)>`
(src/generator.rs:112): child CID to a previously scanned parent. -/
abbrev Cache := List (Cid × (Cid × Bytes))

/-- Inserting a scanned block's buffered links into the scan cache
(src/generator.rs:149-154), first-writer-wins per link. -/
def cacheInsertLinks (links : List Cid) (ucid : Cid) (ubytes : Bytes)
    (cache : Cache) : Cache :=
  links.foldl (fun ch l => insertIfAbsent ch l (ucid, ubytes)) cache

/-- Result of advancing the single-pass `unvisited_nodes` iterator until a
parent of the current CID is found (src/generator.rs:129-155). -/
inductive FindRes where
  | panic : FindRes
  | found : Cid → Bytes → Table → Cache → FindRes
  | exhausted : Cache → FindRes
deriving DecidableEq, Repr

section Generator

variable (cidTryFrom : Bytes → Option Cid) (newFromCbor : Bytes → Nat → Cid)
variable (defCode : Nat)

/-- The inner `for (u_cid, u_bytes) in &mut unvisited_nodes` loop of
`generate_proof_raw` (src/generator.rs:129-155): scan each remaining witness
entry; on the first entry linking to `cur` return it together with the
not-yet-visited suffix and the cache as updated by the earlier, match-free
entries; otherwise insert each buffered link into the cache and continue. -/
def findParent (cur : Cid) : Table → Cache → FindRes
  | [], cache => .exhausted cache
  | (ucid, ubytes) :: rest, cache =>
    match scanFor cidTryFrom cur 1 ubytes with
    | .panic => .panic
    | .found => .found ucid ubytes rest cache
    | .noMatch ls => findParent cur rest (cacheInsertLinks ls ucid ubytes cache)

/-- Result of `generate_proof_raw`: the `NodeNotFound` error, a scanner
panic, or `Ok(Proof { nodes })`. `outOfFuel` is the modelling artefact for
the loop bound; the Rust loop always terminates, and every theorem below
holds for every fuel value. -/
inductive GenRes where
  | nodeNotFound : GenRes
  | panic : GenRes
  | outOfFuel : GenRes
  | ok : List Bytes → GenRes
deriving DecidableEq, Repr

/-- The `'proof: loop` of `generate_proof_raw` (src/generator.rs:114-158):
stop successfully when the requested root is reached; otherwise follow a
scan-cache hit if present; otherwise advance the single-pass iterator over
the witness table, appending the first parent found, and stop successfully
when the iterator is exhausted. -/
def genLoop (root : Option Cid) :
    Nat → Cid → List Bytes → Cache → Table → GenRes
  | 0, _, _, _, _ => .outOfFuel
  | fuel + 1, cur, acc, cache, unvisited =>
    if root = some cur then .ok acc
    else
      match removeBy cache cur with
      | some ((pcid, pbytes), cache') =>
        genLoop root fuel pcid (acc ++ [pbytes]) cache' unvisited
      | none =>
        match findParent cidTryFrom cur unvisited cache with
        | .panic => .panic
        | .found ucid ubytes rest cache' =>
          genLoop root fuel ucid (acc ++ [ubytes]) cache' rest
        | .exhausted _ => .ok acc

/-- Embedding of `ProofGenerator::generate_proof_raw`
(src/generator.rs:96-161): hash the supplied bytes with the fixed default
code, fail with `NodeNotFound` unless that CID is in the witness table, then
run the search loop starting from a proof containing just the leaf bytes. -/
def generateProofRaw (table : Table) (bytes : Bytes) (root : Option Cid)
    (fuel : Nat) : GenRes :=
  let cur := newFromCbor bytes defCode
  if (lookupBy table cur).isSome then
    genLoop cidTryFrom root fuel cur [bytes] [] table
  else .nodeNotFound

end Generator

/-- Opaque error values of the underlying store (`forest_db::Error`,
`Box<dyn StdError>`); they are only ever propagated unchanged. -/
abbrev Err := Nat

/-- The underlying block store `BS` together with its generic key/value
capability (`ipld_blockstore::BlockStore` + `forest_db::Store`), external to
the core. Each capability is a function the recorder delegates to. -/
structure BaseStore where
  getBytes : Cid → Except Err (Option Bytes)
  read : Bytes → Except Err (Option Bytes)
  write : Bytes → Bytes → Except Err Unit
  delete : Bytes → Except Err Unit
  existsKey : Bytes → Except Err Bool
  bulkRead : List Bytes → Except Err (List (Option Bytes))
  bulkWrite : List (Bytes × Bytes) → Except Err Unit
  bulkDelete : List Bytes → Except Err Unit

section Recorder

variable (newFromCbor : Bytes → Nat → Cid) (cidToBytes : Cid → Bytes)

/-- Embedding of `ProofGenerator::get_bytes` (src/generator.rs:168-179):
delegate to the base store; on `Ok(Some(bytes))` record `(cid, bytes)` in the
witness table first-writer-wins; return the base result verbatim. The pair is
(returned result, witness table after the call). -/
def getBytesOp (base : BaseStore) (tbl : Table) (c : Cid) :
    Except Err (Option Bytes) × Table :=
  match base.getBytes c with
  | .error e => (.error e, tbl)
  | .ok none => (.ok none, tbl)
  | .ok (some b) => (.ok (some b), insertIfAbsent tbl c b)

/-- Embedding of `ProofGenerator::put_raw` (src/generator.rs:181-189):
compute the CID, record `(cid, bytes)` first-writer-wins, then persist via
`self.write(cid.to_bytes(), bytes)`, propagating any write error; the
witness-table insertion happens before the write and is never rolled back. -/
def putRawOp (base : BaseStore) (tbl : Table) (bytes : Bytes) (code : Nat) :
    Except Err Cid × Table :=
  let c := newFromCbor bytes code
  let tbl' := insertIfAbsent tbl c bytes
  match base.write (cidToBytes c) bytes with
  | .error e => (.error e, tbl')
  | .ok _ => (.ok c, tbl')

/-- Embedding of `Store::read` for the recorder (src/generator.rs:196-201): pure
delegation, the witness table is untouched. -/
def readOp (base : BaseStore) (tbl : Table) (k : Bytes) :
    Except Err (Option Bytes) × Table :=
  (base.read k, tbl)

/-- Embedding of `Store::write` for the recorder (src/generator.rs:202-208). -/
def writeOp (base : BaseStore) (tbl : Table) (k v : Bytes) :
    Except Err Unit × Table :=
  (base.write k v, tbl)

/-- Embedding of `Store::delete` for the recorder (src/generator.rs:209-214). -/
def deleteOp (base : BaseStore) (tbl : Table) (k : Bytes) :
    Except Err Unit × Table :=
  (base.delete k, tbl)

/-- Embedding of `Store::exists` for the recorder (src/generator.rs:215-220). -/
def existsOp (base : BaseStore) (tbl : Table) (k : Bytes) :
    Except Err Bool × Table :=
  (base.existsKey k, tbl)

/-- Embedding of `Store::bulk_read` for the recorder (src/generator.rs:221-226). -/
def bulkReadOp (base : BaseStore) (tbl : Table) (ks : List Bytes) :
    Except Err (List (Option Bytes)) × Table :=
  (base.bulkRead ks, tbl)

/-- Embedding of `Store::bulk_write` for the recorder (src/generator.rs:227-233). -/
def bulkWriteOp (base : BaseStore) (tbl : Table) (kvs : List (Bytes × Bytes)) :
    Except Err Unit × Table :=
  (base.bulkWrite kvs, tbl)

/-- Embedding of `Store::bulk_delete` for the recorder (src/generator.rs:234-239). -/
def bulkDeleteOp (base : BaseStore) (tbl : Table) (ks : List Bytes) :
    Except Err Unit × Table :=
  (base.bulkDelete ks, tbl)

end Recorder

/-!
The proof wire format (src/proof.rs:22-69, spec section 6): a definite-length
CBOR array of definite-length byte strings, leaf first. The `Serialize` impl
writes `serialize_seq(Some(len))` and one `serde_bytes` element per node; the
`Deserialize` impl reads a sequence of byte buffers with no further checks.
The CBOR layer itself is `serde_cbor` (an external collaborator), embedded
here for the definite-length forms per RFC 7049: the serializer always emits
minimal-width definite-length headers, the parser accepts any width.
-/

/-- Big-endian bytes of `n`, `k` bytes wide (`byteorder::BigEndian`). -/
def encodeBE : Nat → Nat → List Nat
  | 0, _ => []
  | k + 1, n => encodeBE k (n / 256) ++ [n % 256]

/-- A CBOR header with major type `maj` and value `n`, in the minimal legal
width, as `serde_cbor`'s serializer emits it. -/
def encodeHeader (maj n : Nat) : List Nat :=
  if n < 24 then [maj * 32 + n]
  else if n < 256 then [maj * 32 + 24, n]
  else if n < 65536 then (maj * 32 + 25) :: encodeBE 2 n
  else if n < 4294967296 then (maj * 32 + 26) :: encodeBE 4 n
  else (maj * 32 + 27) :: encodeBE 8 n

/-- The concatenated per-node encodings: each node as a CBOR byte string
(header for its length, then its raw bytes). -/
def encNodes (nodes : List Bytes) : List Nat :=
  nodes.foldr (fun b acc => encodeHeader 2 b.length ++ b ++ acc) []

/-- Serialization of a `Proof` (src/proof.rs:22-33): a CBOR array header for
the node count followed by each node as a CBOR byte string, leaf to root. -/
def encodeProof (nodes : List Bytes) : List Nat :=
  encodeHeader 4 nodes.length ++ encNodes nodes

/-- A CBOR header as `serde_cbor`'s parser reads it: any definite-length
width is accepted (no canonicality check on input). -/
def readLenientHeader : List Nat → Option ((Nat × Nat) × List Nat)
  | [] => none
  | first :: rest =>
    let maj := first % 256 / 32
    let low := first % 256 % 32
    if low < 24 then some ((maj, low), rest)
    else if low = 24 then
      match rest with
      | [] => none
      | v :: r => some ((maj, v % 256), r)
    else if low = 25 then
      if rest.length < 2 then none
      else some ((maj, beVal (rest.take 2)), rest.drop 2)
    else if low = 26 then
      if rest.length < 4 then none
      else some ((maj, beVal (rest.take 4)), rest.drop 4)
    else if low = 27 then
      if rest.length < 8 then none
      else some ((maj, beVal (rest.take 8)), rest.drop 8)
    else none

/-- Reading `n` CBOR byte strings in sequence (the `ProofVisitor` loop,
src/proof.rs:49-63). -/
def decodeByteStrings : Nat → List Nat → Option (List Bytes × List Nat)
  | 0, bs => some ([], bs)
  | n + 1, bs =>
    match readLenientHeader bs with
    | none => none
    | some ((maj, len), r) =>
      if maj = 2 then
        if r.length < len then none
        else
          match decodeByteStrings n (r.drop len) with
          | none => none
          | some (nodes, rest) => some (r.take len :: nodes, rest)
      else none

/-- Deserialization of a `Proof` (src/proof.rs:35-69 through
`serde_cbor::from_slice`): a definite-length CBOR array of byte strings,
with no trailing bytes; note that the empty array is accepted and produces
an empty node list. -/
def decodeProof (bs : List Nat) : Option (List Bytes) :=
  match readLenientHeader bs with
  | none => none
  | some ((maj, n), r) =>
    if maj = 4 then
      match decodeByteStrings n r with
      | none => none
      | some (nodes, rest) => if rest = [] then some nodes else none
    else none

/-!
Concrete stand-ins for the external content-identifier primitive, used to
evaluate the parametric model on closed inputs. `cidOfBytes` is injective and
code-sensitive, as the real `cid::new_from_cbor` (a Blake2b-256 multihash
wrapped with the codec) is assumed to be.
-/

/-- Concrete stand-in for `cid::new_from_cbor(bytes, code)`. -/
def cidOfBytes (bs : Bytes) (code : Nat) : Cid := code :: bs

/-- Concrete stand-in for `Cid::try_from` on the identity-prefix-stripped
payload: accept the bytes as the CID. -/
def cidParse (bs : Bytes) : Option Cid := some bs

/-- Concrete stand-in for `Cid::to_bytes`. -/
def cidBytes (c : Cid) : Bytes := c

/-- Predicate: `cs` is a chain of witnessed blocks in `table`, child first: every CID in
`cs` has an entry and each CID appears among the scanner links of the next
CID's block, so the chain climbs from `cs.head` up to the last element. -/
def isChain (cidTryFrom : Bytes → Option Cid) (table : Table) :
    List Cid → Bool
  | [] => false
  | [c] => (lookupBy table c).isSome
  | c :: c' :: rest =>
    ((lookupBy table c).isSome &&
      match lookupBy table c' with
      | none => false
      | some pb => decide (c ∈ collectLinks cidTryFrom 1 pb)) &&
      isChain cidTryFrom table (c' :: rest)

/-- The CBOR block `0x01` (the unsigned integer 1): the example leaf. -/
def exL : Bytes := [1]

/-- CID of the example leaf under the default code `1`. -/
def exCidL : Cid := cidOfBytes exL 1

/-- A block whose only link is the leaf's CID — CBOR tag 42 followed by a
3-byte string holding the identity multibase prefix `0x00` and the CID — and
which no other block links to (a dead-end parent). -/
def exX : Bytes := [216, 42, 67, 0, 1, 1]

/-- CID of the dead-end parent. -/
def exCidX : Cid := cidOfBytes exX 1

/-- A two-element CBOR array `[link-to-leaf, 2]`: the chain parent. -/
def exA : Bytes := [130, 216, 42, 67, 0, 1, 1, 2]

/-- CID of the chain parent. -/
def exCidA : Cid := cidOfBytes exA 1

/-- A block linking the chain parent's CID: the chain root. -/
def exR : Bytes := [216, 42, 74, 0, 1, 130, 216, 42, 67, 0, 1, 1, 2]

/-- CID of the chain root. -/
def exCidR : Cid := cidOfBytes exR 1

/-- An example witness table holding the leaf, the dead-end parent (earlier
in iteration order), and the chain `exA`, `exR` up to the root. -/
def exTable : Table :=
  [(exCidL, exL), (exCidX, exX), (exCidA, exA), (exCidR, exR)]

/-!
Invariants of the generator search loop, used to show that every proof the
generator returns starts with the leaf and validates.
-/

/-- A removed entry was present, and the remainder is a sub-collection. -/
theorem removeBy_mem {β : Type} {l : List (Cid × β)} {c : Cid} {v : β}
    {rest : List (Cid × β)} (h : removeBy l c = some (v, rest)) :
    (c, v) ∈ l ∧ ∀ x ∈ rest, x ∈ l := by
  induction l generalizing rest with
  | nil => simp [removeBy] at h
  | cons p l ih =>
    obtain ⟨k, w⟩ := p
    simp only [removeBy] at h
    split at h
    · rename_i hk
      simp only [Option.some.injEq, Prod.mk.injEq] at h
      obtain ⟨hv, hr⟩ := h
      subst hk hv hr
      exact ⟨List.mem_cons_self _ _, fun x hx => List.mem_cons_of_mem _ hx⟩
    · rename_i hk
      match hrec : removeBy l c with
      | none => rw [hrec] at h; cases h
      | some (v', rest') =>
        rw [hrec] at h
        simp only [Option.some.injEq, Prod.mk.injEq] at h
        obtain ⟨hv, hr⟩ := h
        subst hv
        obtain ⟨hmem, hsub⟩ := ih hrec
        refine ⟨List.mem_cons_of_mem _ hmem, fun x hx => ?_⟩
        rw [← hr] at hx
        rcases List.mem_cons.mp hx with hx | hx
        · exact hx ▸ List.mem_cons_self _ _
        · exact List.mem_cons_of_mem _ (hsub x hx)

/-- Membership after a first-writer-wins insertion. -/
theorem insertIfAbsent_mem {β : Type} {x : Cid × β} {l : List (Cid × β)}
    {c : Cid} {v : β} (h : x ∈ insertIfAbsent l c v) :
    x ∈ l ∨ x = (c, v) := by
  unfold insertIfAbsent at h
  split at h
  · exact Or.inl h
  · rcases List.mem_append.mp h with h | h
    · exact Or.inl h
    · exact Or.inr (List.mem_singleton.mp h)

section Invariants

variable (cidTryFrom : Bytes → Option Cid) (newFromCbor : Bytes → Nat → Cid)
variable (defCode : Nat)

/-- Scan-cache soundness: every cached entry `(child, (parent_cid,
parent_bytes))` records a parent whose scan finds the child, keyed by the
parent's genuine CID. -/
def cacheOkP (cache : Cache) : Prop :=
  ∀ e ∈ cache, scanFor cidTryFrom e.1 1 e.2.2 = .found ∧
    e.2.1 = newFromCbor e.2.2 defCode

/-- Witness-table honesty: every key is the CID of its bytes (the
content-addressing assumption of spec section 3). -/
def tableOkP (t : Table) : Prop := ∀ p ∈ t, p.1 = newFromCbor p.2 defCode

/-- Inserting a completed match-free scan's links preserves cache
soundness. -/
theorem cacheInsertLinks_ok {ls : List Cid} {ucid : Cid} {ubytes : Bytes}
    {cache : Cache}
    (hls : ∀ l ∈ ls, scanFor cidTryFrom l 1 ubytes = .found)
    (hu : ucid = newFromCbor ubytes defCode)
    (hc : cacheOkP cidTryFrom newFromCbor defCode cache) :
    cacheOkP cidTryFrom newFromCbor defCode
      (cacheInsertLinks ls ucid ubytes cache) := by
  induction ls generalizing cache with
  | nil => simpa [cacheInsertLinks]
  | cons l ls ih =>
    simp only [cacheInsertLinks, List.foldl_cons]
    refine ih (fun l' hl' => hls l' (List.mem_cons_of_mem _ hl')) ?_
    intro e he
    rcases insertIfAbsent_mem he with h | h
    · exact hc e h
    · subst h
      exact ⟨hls l (List.mem_cons_self _ _), hu⟩

/-- What a successful advance of the single-pass iterator guarantees: the
returned entry scans to the current CID, it is honestly keyed, the updated
cache stays sound, and the remaining iterator is a suffix of honest
entries. -/
theorem findParent_found {cur : Cid} :
    ∀ {unv : Table} {cache : Cache} {ucid : Cid} {ubytes : Bytes}
      {rest : Table} {cache' : Cache},
      findParent cidTryFrom cur unv cache = .found ucid ubytes rest cache' →
      cacheOkP cidTryFrom newFromCbor defCode cache →
      tableOkP newFromCbor defCode unv →
      scanFor cidTryFrom cur 1 ubytes = .found ∧
        ucid = newFromCbor ubytes defCode ∧
        cacheOkP cidTryFrom newFromCbor defCode cache' ∧
        tableOkP newFromCbor defCode rest := by
  intro unv
  induction unv with
  | nil =>
    intro cache ucid ubytes rest cache' h hc ht
    simp [findParent] at h
  | cons p unv ih =>
    obtain ⟨k, b⟩ := p
    intro cache ucid ubytes rest cache' h hc ht
    simp only [findParent] at h
    cases hs : scanFor cidTryFrom cur 1 b with
    | panic => rw [hs] at h; cases h
    | found =>
      rw [hs] at h
      simp only [FindRes.found.injEq] at h
      obtain ⟨hk, hb, hr, hch⟩ := h
      subst hk hb hr hch
      exact ⟨hs, ht _ (List.mem_cons_self _ _), hc,
        fun q hq => ht q (List.mem_cons_of_mem _ hq)⟩
    | noMatch ls =>
      rw [hs] at h
      refine ih h ?_ (fun q hq => ht q (List.mem_cons_of_mem _ hq))
      exact cacheInsertLinks_ok cidTryFrom newFromCbor defCode
        (fun l hl => scanFor_found_of_noMatch_mem cidTryFrom hs hl)
        (ht _ (List.mem_cons_self _ _)) hc

/-- The CID `current_cid` tracks during the search: that of the most
recently appended node, or the starting CID when the list is empty. -/
def lastCid (prev : Cid) : List Bytes → Cid
  | [] => prev
  | b :: rest => lastCid (newFromCbor b defCode) rest

/-- Appending one node makes `lastCid` that node's CID. -/
theorem lastCid_concat (prev : Cid) (xs : List Bytes) (b : Bytes) :
    lastCid newFromCbor defCode prev (xs ++ [b]) =
      newFromCbor b defCode := by
  induction xs generalizing prev with
  | nil => rfl
  | cons x xs ih => simpa [lastCid] using ih (newFromCbor x defCode)

/-- Stepping `lastCid` through a cons. -/
theorem lastCid_cons (prev : Cid) (x : Bytes) (xs : List Bytes) :
    lastCid newFromCbor defCode prev (x :: xs) =
      lastCid newFromCbor defCode (newFromCbor x defCode) xs := rfl

/-- Appending a node whose scan finds the CID of the previous last node
preserves a validating chain. -/
theorem validateLoop_concat {prev : Cid} {xs : List Bytes} {b : Bytes}
    (hok : validateLoop cidTryFrom newFromCbor defCode prev xs = .ok)
    (hf : scanFor cidTryFrom
      (lastCid newFromCbor defCode prev xs) 1 b = .found) :
    validateLoop cidTryFrom newFromCbor defCode prev (xs ++ [b]) = .ok := by
  induction xs generalizing prev with
  | nil =>
    simp only [lastCid] at hf
    simp [validateLoop, hf]

  | cons x xs ih =>
    simp only [validateLoop] at hok
    cases hs : scanFor cidTryFrom prev 1 x with
    | panic => rw [hs] at hok; cases hok
    | noMatch ls => rw [hs] at hok; cases hok
    | found =>
      rw [hs] at hok
      rw [lastCid_cons] at hf
      simpa [validateLoop, hs] using ih hok hf

/-- The search-loop invariant: if the loop returns `Ok`, the accumulated
proof keeps its leading leaf and the whole chain validates. -/
theorem genLoop_ok_invariant :
    ∀ (fuel : Nat) (root : Option Cid) (cur : Cid) (hd : Bytes)
      (tl : List Bytes) (cache : Cache) (unv : Table) (ns : List Bytes),
      genLoop cidTryFrom root fuel cur (hd :: tl) cache unv = .ok ns →
      validateLoop cidTryFrom newFromCbor defCode
        (newFromCbor hd defCode) tl = .ok →
      cur = lastCid newFromCbor defCode (newFromCbor hd defCode) tl →
      cacheOkP cidTryFrom newFromCbor defCode cache →
      tableOkP newFromCbor defCode unv →
      ns.head? = some hd ∧
        validateProof cidTryFrom newFromCbor defCode ns = .ok := by
  intro fuel
  induction fuel with
  | zero =>
    intro root cur hd tl cache unv ns h
    simp [genLoop] at h
  | succ fuel ih =>
    intro root cur hd tl cache unv ns h hval hcur hc ht
    simp only [genLoop] at h
    split at h
    · simp only [GenRes.ok.injEq] at h
      subst h
      exact ⟨rfl, by simpa [validateProof] using hval⟩
    · split at h
      · rename_i pcid pbytes cache' hrm
        obtain ⟨hmem, hsub⟩ := removeBy_mem hrm
        obtain ⟨hfound, hpcid⟩ := hc _ hmem
        refine ih root pcid hd (tl ++ [pbytes]) cache' unv ns
          (by simpa using h) ?_ ?_ ?_ ht
        · exact validateLoop_concat cidTryFrom newFromCbor defCode hval
            (hcur ▸ hfound)
        · rw [lastCid_concat]
          exact hpcid
        · exact fun e he => hc e (hsub e he)
      · split at h
        · cases h
        · rename_i ucid ubytes rest cache' hfp
          obtain ⟨hfound, hucid, hc', ht'⟩ :=
            findParent_found cidTryFrom newFromCbor defCode hfp hc ht
          refine ih root ucid hd (tl ++ [ubytes]) cache' rest ns
            (by simpa using h) ?_ ?_ hc' ht'
          · exact validateLoop_concat cidTryFrom newFromCbor defCode hval
              (hcur ▸ hfound)
          · rw [lastCid_concat]
            exact hucid
        · simp only [GenRes.ok.injEq] at h
          subst h
          exact ⟨rfl, by simpa [validateProof] using hval⟩

/-- The search loop never produces `NodeNotFound`; that error arises only
from the membership precondition checked before the loop. -/
theorem genLoop_ne_nodeNotFound :
    ∀ (fuel : Nat) (root : Option Cid) (cur : Cid) (acc : List Bytes)
      (cache : Cache) (unv : Table),
      genLoop cidTryFrom root fuel cur acc cache unv ≠ .nodeNotFound := by
  intro fuel
  induction fuel with
  | zero => intro root cur acc cache unv h; simp [genLoop] at h
  | succ fuel ih =>
    intro root cur acc cache unv h
    simp only [genLoop] at h
    split at h
    · cases h
    · split at h
      · rename_i pcid pbytes cache' hrm
        exact ih root pcid (acc ++ [pbytes]) cache' unv h
      · split at h
        · cases h
        · rename_i ucid ubytes rest cache' hfp
          exact ih root ucid (acc ++ [ubytes]) cache' rest h
        · cases h

/-- If the loop returns `Ok`, the accumulated node list keeps its head. -/
theorem genLoop_ok_head :
    ∀ (fuel : Nat) (root : Option Cid) (cur : Cid) (hd : Bytes)
      (tl : List Bytes) (cache : Cache) (unv : Table) (ns : List Bytes),
      genLoop cidTryFrom root fuel cur (hd :: tl) cache unv = .ok ns →
      ns.head? = some hd := by
  intro fuel
  induction fuel with
  | zero =>
    intro root cur hd tl cache unv ns h
    simp [genLoop] at h
  | succ fuel ih =>
    intro root cur hd tl cache unv ns h
    simp only [genLoop] at h
    split at h
    · simp only [GenRes.ok.injEq] at h
      subst h
      rfl
    · split at h
      · rename_i pcid pbytes cache' hrm
        exact ih root pcid hd (tl ++ [pbytes]) cache' unv ns (by simpa using h)
      · split at h
        · cases h
        · rename_i ucid ubytes rest cache' hfp
          exact ih root ucid hd (tl ++ [ubytes]) cache' rest ns
            (by simpa using h)
        · simp only [GenRes.ok.injEq] at h
          subst h
          rfl

end Invariants

/-- C4: the Link Scanner is claimed total and panic-free on malformed input,
with tag-42 declared lengths of 0 or up to the accepted maximum of 100
silently ending the sequence. The code panics instead: a declared length of
0 reaches the out-of-bounds slice `&self.scratch[1..0]`
(src/link_scanner.rs:74), and declared lengths 71..=100 pass the `extra >
100` guard yet overrun the 70-byte scratch buffer in
`read_exact(&mut self.scratch[..extra])` (src/link_scanner.rs:73). -/
theorem c4_scanner_panics :
    scannerNext cidParse 1 [216, 42, 64] = .panic ∧
    scannerNext cidParse 1 [216, 42, 88, 80] = .panic := by
  constructor <;>
    simp [scannerNext, cbor_read_header_buf, beVal, cidParse]

/-- C2: `validate` is claimed to return `InvalidProof{link, data}` exactly
when some non-leaf node's scan yields no CID equal to the preceding node's
CID. On the proof `[[0x01], [0xd8, 0x2a, 0x58, 0x50]]` the second node's
scan yields no CID at all (second conjunct), so the claim demands
`InvalidProof`; the code instead panics in the scanner (tag-42 declared
length 80 overruns the 70-byte scratch buffer). -/
theorem c2_validate_panics :
    validateProof cidParse cidOfBytes 1 [[1], [216, 42, 88, 80]] = .panic ∧
    collectLinks cidParse 1 [216, 42, 88, 80] = [] := by
  constructor
  · simp [validateProof, validateLoop, scanFor, collectLinksP_eq,
      scannerNext, cbor_read_header_buf, beVal, cidParse, cidOfBytes]
  · simp [collectLinks, collectLinksP_eq, scannerNext, cbor_read_header_buf,
      beVal, cidParse]

/-- C3: `generate_proof_to_cid` (which is `generate_proof_raw` with
`Some(root)`, src/generator.rs:86-88) is claimed — and its own doc comment
says — to return an error when the root is unreachable. With only the leaf
witnessed and an unreachable root `[9, 9]`, the code instead returns
`Ok(Proof { nodes: [leaf] })` whose root is `cid(leaf) ≠ [9, 9]`. The last
conjunct shows the genuine half of the claim: as soon as the chain reaches
the requested root the search stops, even though parents of the root are
witnessed. -/
theorem c3_unreachable_root_not_an_error :
    generateProofRaw cidParse cidOfBytes 1 [(exCidL, exL)] exL (some [9, 9])
        10 = .ok [exL] ∧
    proofRoot cidOfBytes 1 [exL] = some exCidL ∧
    exCidL ≠ [9, 9] ∧
    generateProofRaw cidParse cidOfBytes 1 exTable exL (some exCidL) 10 =
      .ok [exL] := by
  refine ⟨?_, by simp [proofRoot, exL, exCidL, cidOfBytes], by simp [exCidL,
    exL, cidOfBytes], ?_⟩
  · simp [generateProofRaw, genLoop, findParent, scanFor, collectLinksP_eq,
      scannerNext, cbor_read_header_buf, beVal, cidParse, cidOfBytes,
      lookupBy, removeBy, cacheInsertLinks, insertIfAbsent, exL, exCidL]
  · simp [generateProofRaw, genLoop, lookupBy, exTable, exL, exCidL, exCidX,
      exCidA, exCidR, exX, exA, exR, cidOfBytes]

/-- C1: with the leaf, a dead-end parent `exX` that links the leaf, and a
genuine witnessed chain leaf → `exA` → `exR` all in the witness table, the
claim asserts `generate_proof_raw(bytes(L), Some(cid(R)))` returns a proof
whose root is `cid(R)`. The first-found search instead follows the dead-end
parent (earlier in the table's iteration order) and, with no parent of `exX`
witnessed, returns the partial proof `[exL, exX]` whose root is `cid(exX) ≠
cid(exR)` — even though every table key is the CID of its bytes and the
chain hypothesis of the claim holds. The surviving parts of the claim
(leading leaf node, successful validation) are visible in the result. -/
theorem c1_counterexample :
    isChain cidParse exTable [exCidL, exCidA, exCidR] = true ∧
    lookupBy exTable (cidOfBytes exL 1) = some exL ∧
    exTable.all (fun p => p.1 = cidOfBytes p.2 1) = true ∧
    generateProofRaw cidParse cidOfBytes 1 exTable exL (some exCidR) 10 =
      .ok [exL, exX] ∧
    proofRoot cidOfBytes 1 [exL, exX] = some exCidX ∧
    exCidX ≠ exCidR ∧
    validateProof cidParse cidOfBytes 1 [exL, exX] = .ok := by
  refine ⟨?_, ?_, ?_, ?_, ?_, ?_, ?_⟩
  · simp [isChain, lookupBy, collectLinks, collectLinksP_eq, scannerNext,
      cbor_read_header_buf, beVal, cidParse, cidOfBytes, exTable, exL, exX,
      exA, exR, exCidL, exCidX, exCidA, exCidR]
  · simp [lookupBy, exTable, exL, exX, exA, exR, exCidL, exCidX, exCidA,
      exCidR, cidOfBytes]
  · simp [exTable, exL, exX, exA, exR, exCidL, exCidX, exCidA, exCidR,
      cidOfBytes]
  · simp [generateProofRaw, genLoop, findParent, scanFor, collectLinksP_eq,
      scannerNext, cbor_read_header_buf, beVal, cidParse, cidOfBytes,
      lookupBy, removeBy, cacheInsertLinks, insertIfAbsent, exTable, exL,
      exX, exA, exR, exCidL, exCidX, exCidA, exCidR]
  · simp [proofRoot, exL, exX, exCidX, cidOfBytes]
  · simp [exCidX, exCidR, exX, exR, cidOfBytes]
  · simp [validateProof, validateLoop, scanFor, collectLinksP_eq,
      scannerNext, cbor_read_header_buf, beVal, cidParse, cidOfBytes, exL,
      exX, exCidL]

/-- C1 (amended): for every honestly keyed witness table (each key is the
CID of its bytes), `generate_proof_raw` fails with `NodeNotFound` exactly
when the leaf's CID is absent from the table — no other block need have been
observed — and whenever it returns a proof, the proof's first node is the
supplied leaf bytes and `validate()` succeeds. The original claim's further
guarantee `p.root() == cid(R)` does not hold (see the counterexample): the
first-found search over the table's unspecified iteration order may stop at
a different ancestor even when a chain to `R` is witnessed. -/
theorem c1_amended (cidTryFrom : Bytes → Option Cid)
    (newFromCbor : Bytes → Nat → Cid) (defCode : Nat) (table : Table)
    (L : Bytes) (root : Option Cid) (fuel : Nat)
    (hwf : ∀ p ∈ table, p.1 = newFromCbor p.2 defCode) :
    (∀ ns, generateProofRaw cidTryFrom newFromCbor defCode table L root
        fuel = .ok ns →
      ns.head? = some L ∧
        validateProof cidTryFrom newFromCbor defCode ns = .ok) ∧
    (generateProofRaw cidTryFrom newFromCbor defCode table L root fuel =
        .nodeNotFound ↔
      lookupBy table (newFromCbor L defCode) = none) := by
  constructor
  · intro ns h
    simp only [generateProofRaw] at h
    split at h
    · exact genLoop_ok_invariant cidTryFrom newFromCbor defCode fuel root _
        L [] [] table ns h rfl rfl (by simp [cacheOkP]) hwf
    · cases h
  · constructor
    · intro h
      simp only [generateProofRaw] at h
      split at h
      · exact absurd h
          (genLoop_ne_nodeNotFound cidTryFrom fuel root _ [L] [] table)
      · rename_i hlk
        exact Option.not_isSome_iff_eq_none.mp hlk
    · intro h
      simp only [generateProofRaw]
      split
      · rename_i hlk
        rw [h] at hlk
        cases hlk
      · rfl

/-- Witness for the amended C1 at a concrete one-block table: generation
succeeds, the resulting proof validates, and no `NodeNotFound` arises. -/
theorem c1_amended_witness :
    validateProof cidParse cidOfBytes 1 [[1]] = .ok ∧
    ¬(generateProofRaw cidParse cidOfBytes 1 [([1, 1], [1])] [1] none 5 =
      .nodeNotFound) := by
  have h := c1_amended cidParse cidOfBytes 1 [([1, 1], [1])] [1] none 5
    (by simp [cidOfBytes])
  refine ⟨(h.1 [[1]] ?_).2, fun hn => ?_⟩
  · simp [generateProofRaw, genLoop, findParent, scanFor, collectLinksP_eq,
      scannerNext, cbor_read_header_buf, cidParse, cidOfBytes, lookupBy,
      removeBy, cacheInsertLinks, insertIfAbsent]
  · have := h.2.mp hn
    simp [lookupBy, cidOfBytes] at this

/-- C6 (counterexample): deserializing the one-byte wire form `0x80` (the
empty CBOR array) yields a `Proof` with an empty node list, on which both
`root()` and `validate()` hit the "empty proof should be impossible to
create" panic — so not every publicly obtainable `Proof` is non-empty. -/
theorem c6_counterexample :
    decodeProof [128] = some [] ∧
    proofRoot cidOfBytes 1 [] = none ∧
    validateProof cidParse cidOfBytes 1 [] = .panic := by
  refine ⟨?_, by simp [proofRoot], by simp [validateProof]⟩
  simp [decodeProof, readLenientHeader, decodeByteStrings]

/-- C6 (amended): every `Proof` returned by the generator entry points
(`generate_proof`, `generate_proof_to_cid` and `generate_proof_raw` all go
through `generate_proof_raw`) has a non-empty node list headed by the leaf,
so the empty-proof panics in `root()` and `validate()` are unreachable from
generation; deserialization, however, accepts the empty CBOR array (see the
counterexample). -/
theorem c6_generated_proofs_nonempty (cidTryFrom : Bytes → Option Cid)
    (newFromCbor : Bytes → Nat → Cid) (defCode : Nat) (table : Table)
    (L : Bytes) (root : Option Cid) (fuel : Nat) (ns : List Bytes)
    (h : generateProofRaw cidTryFrom newFromCbor defCode table L root fuel =
      .ok ns) :
    ns ≠ [] ∧ ns.head? = some L := by
  have hh : ns.head? = some L := by
    simp only [generateProofRaw] at h
    split at h
    · exact genLoop_ok_head cidTryFrom fuel root _ L [] [] table ns h
    · cases h
  refine ⟨fun he => ?_, hh⟩
  rw [he] at hh
  cases hh

/-- Witness for the amended C6 at a concrete one-block table. -/
theorem c6_generated_proofs_nonempty_witness : ([[1]] : List Bytes) ≠ [] :=
  (c6_generated_proofs_nonempty cidParse cidOfBytes 1 [([1, 1], [1])] [1]
    none 5 [[1]]
    (by simp [generateProofRaw, genLoop, findParent, scanFor,
      collectLinksP_eq, scannerNext, cbor_read_header_buf, cidParse,
      cidOfBytes, lookupBy, removeBy, cacheInsertLinks,
      insertIfAbsent])).1

/-- `encodeBE` always produces exactly `k` bytes. -/
theorem encodeBE_length (k n : Nat) : (encodeBE k n).length = k := by
  induction k generalizing n with
  | zero => rfl
  | succ k ih => simp [encodeBE, ih]

/-- Folding the big-endian digits of `n` recovers `n` modulo `256 ^ k`. -/
theorem foldl_encodeBE (k : Nat) :
    ∀ (n a : Nat),
      List.foldl (fun a b => a * 256 + b % 256) a (encodeBE k n) =
        a * 256 ^ k + n % 256 ^ k := by
  induction k with
  | zero => intro n a; simp [encodeBE, Nat.mod_one]
  | succ k ih =>
    intro n a
    simp only [encodeBE, List.foldl_append, List.foldl_cons, List.foldl_nil]
    rw [ih (n / 256) a]
    have h1 : n % 256 % 256 = n % 256 := Nat.mod_mod_of_dvd n (dvd_refl 256)
    have h2 : n % (256 ^ (k + 1)) = n % 256 + 256 * (n / 256 % 256 ^ k) := by
      rw [pow_succ']
      exact Nat.mod_mul
    rw [h1, h2, pow_succ]
    ring

/-- Big-endian decoding inverts encoding for values in range. -/
theorem beVal_encodeBE {k n : Nat} (h : n < 256 ^ k) :
    beVal (encodeBE k n) = n := by
  unfold beVal
  rw [foldl_encodeBE k n 0, Nat.mod_eq_of_lt h]
  simp

/-- The lenient parser inverts the minimal-width header encoder. -/
theorem readLenientHeader_encodeHeader (maj n : Nat) (hm : maj < 8)
    (hn : n < 256 ^ 8) (tail : List Nat) :
    readLenientHeader (encodeHeader maj n ++ tail) = some ((maj, n), tail) := by
  unfold encodeHeader
  split_ifs with h1 h2 h3 h4
  · have e : (maj * 32 + n) % 256 = maj * 32 + n := Nat.mod_eq_of_lt (by omega)
    simp only [List.cons_append, List.nil_append, readLenientHeader, e]
    have e1 : (maj * 32 + n) % 32 = n := by omega
    have e2 : (maj * 32 + n) / 32 = maj := by omega
    rw [e1, e2]
    simp [h1]
  · have e : (maj * 32 + 24) % 256 = maj * 32 + 24 := Nat.mod_eq_of_lt (by omega)
    simp only [List.cons_append, List.nil_append, readLenientHeader, e]
    have e1 : (maj * 32 + 24) % 32 = 24 := by omega
    have e2 : (maj * 32 + 24) / 32 = maj := by omega
    rw [e1, e2]
    simp [Nat.mod_eq_of_lt h2]
  · have e : (maj * 32 + 25) % 256 = maj * 32 + 25 := Nat.mod_eq_of_lt (by omega)
    simp only [List.cons_append, readLenientHeader, e]
    have e1 : (maj * 32 + 25) % 32 = 25 := by omega
    have e2 : (maj * 32 + 25) / 32 = maj := by omega
    rw [e1, e2]
    have hlen : (encodeBE 2 n ++ tail).length = 2 + tail.length := by
      simp [encodeBE_length]
    have htk : (encodeBE 2 n ++ tail).take 2 = encodeBE 2 n := by
      rw [← encodeBE_length 2 n]
      exact List.take_left _ _
    have hdp : (encodeBE 2 n ++ tail).drop 2 = tail := by
      rw [← encodeBE_length 2 n]
      exact List.drop_left _ _
    rw [hlen, htk, hdp, beVal_encodeBE (by omega)]
    simp
  · have e : (maj * 32 + 26) % 256 = maj * 32 + 26 := Nat.mod_eq_of_lt (by omega)
    simp only [List.cons_append, readLenientHeader, e]
    have e1 : (maj * 32 + 26) % 32 = 26 := by omega
    have e2 : (maj * 32 + 26) / 32 = maj := by omega
    rw [e1, e2]
    have hlen : (encodeBE 4 n ++ tail).length = 4 + tail.length := by
      simp [encodeBE_length]
    have htk : (encodeBE 4 n ++ tail).take 4 = encodeBE 4 n := by
      rw [← encodeBE_length 4 n]
      exact List.take_left _ _
    have hdp : (encodeBE 4 n ++ tail).drop 4 = tail := by
      rw [← encodeBE_length 4 n]
      exact List.drop_left _ _
    rw [hlen, htk, hdp, beVal_encodeBE (by omega)]
    simp
  · have e : (maj * 32 + 27) % 256 = maj * 32 + 27 := Nat.mod_eq_of_lt (by omega)
    simp only [List.cons_append, readLenientHeader, e]
    have e1 : (maj * 32 + 27) % 32 = 27 := by omega
    have e2 : (maj * 32 + 27) / 32 = maj := by omega
    rw [e1, e2]
    have hlen : (encodeBE 8 n ++ tail).length = 8 + tail.length := by
      simp [encodeBE_length]
    have htk : (encodeBE 8 n ++ tail).take 8 = encodeBE 8 n := by
      rw [← encodeBE_length 8 n]
      exact List.take_left _ _
    have hdp : (encodeBE 8 n ++ tail).drop 8 = tail := by
      rw [← encodeBE_length 8 n]
      exact List.drop_left _ _
    rw [hlen, htk, hdp, beVal_encodeBE hn]
    simp

/-- Decoding inverts the per-node byte-string encoding, for any trailing
stream. -/
theorem decodeByteStrings_encode (nodes : List Bytes) (tail : List Nat)
    (h : ∀ b ∈ nodes, b.length < 256 ^ 8) :
    decodeByteStrings nodes.length (encNodes nodes ++ tail) =
      some (nodes, tail) := by
  induction nodes with
  | nil => simp [decodeByteStrings, encNodes]
  | cons b nodes ih =>
    have hb : b.length < 256 ^ 8 := h b (List.mem_cons_self _ _)
    have hassoc : encNodes (b :: nodes) ++ tail =
        encodeHeader 2 b.length ++ (b ++ (encNodes nodes ++ tail)) := by
      simp [encNodes, List.append_assoc]
    have IH := ih (fun b' hb' => h b' (List.mem_cons_of_mem _ hb'))
    rw [List.length_cons, hassoc]
    simp only [decodeByteStrings,
      readLenientHeader_encodeHeader 2 b.length (by omega) hb]
    simp [List.take_left, List.drop_left, IH]

/-- C5: deserializing the serialization of a proof yields the same node
list, bit-for-bit (the serialized form is, by `encodeProof`'s definition, a
single CBOR array of byte strings in leaf-to-root order). The length bounds
reflect that Rust `Vec` lengths are `usize` values below `2 ^ 64`. -/
theorem c5_roundtrip (nodes : List Bytes) (h1 : nodes.length < 256 ^ 8)
    (h2 : ∀ b ∈ nodes, b.length < 256 ^ 8) :
    decodeProof (encodeProof nodes) = some nodes := by
  have hnodes : decodeByteStrings nodes.length (encNodes nodes) =
      some (nodes, []) := by
    have := decodeByteStrings_encode nodes [] h2
    rwa [List.append_nil] at this
  simp only [decodeProof, encodeProof,
    readLenientHeader_encodeHeader 4 nodes.length (by omega) h1, hnodes]
  simp

/-- Witness for C5 on a concrete three-node proof (scenario S6 shape). -/
theorem c5_roundtrip_witness :
    decodeProof (encodeProof [[111], [116, 119], [116, 104, 114]]) =
      some [[111], [116, 119], [116, 104, 114]] :=
  c5_roundtrip [[111], [116, 119], [116, 104, 114]] (by norm_num)
    (by intro b hb; simp at hb; rcases hb with h | h | h <;> subst h <;>
      norm_num)

/-- A lookup that succeeds on the left part of an append still succeeds. -/
theorem lookupBy_append_some {β : Type} {l l2 : List (Cid × β)} {c : Cid}
    {v : β} (h : lookupBy l c = some v) : lookupBy (l ++ l2) c = some v := by
  induction l with
  | nil => cases h
  | cons p l ih =>
    obtain ⟨k, w⟩ := p
    by_cases hk : k = c
    · simp only [lookupBy, List.cons_append, if_pos hk] at h ⊢
      exact h
    · simp only [lookupBy, List.cons_append, if_neg hk] at h ⊢
      exact ih h

/-- First-writer-wins insertion never changes an existing entry's value. -/
theorem lookupBy_insertIfAbsent_some {β : Type} {l : List (Cid × β)}
    {c : Cid} {v : β} (c' : Cid) (b : β) (h : lookupBy l c = some v) :
    lookupBy (insertIfAbsent l c' b) c = some v := by
  unfold insertIfAbsent
  split
  · exact h
  · exact lookupBy_append_some h

/-- C7: the witness table is touched only by the blockstore operations, and
only by first-writer-wins insertion. Existing entries survive any
`get_bytes` or `put_raw` unchanged; an operation on an already-present CID
leaves the table itself unchanged; `get_bytes` either leaves the table alone
or inserts the fetched bytes under the fetched CID; and all seven generic
key/value operations return the table untouched. Proof generation
(`generateProofRaw`) consumes the table as a pure read-only argument and
returns no table at all, so it cannot mutate it. -/
theorem c7_witness_table_mutations (newFromCbor : Bytes → Nat → Cid)
    (cidToBytes : Cid → Bytes) (base : BaseStore) (tbl : Table) :
    (∀ c v, lookupBy tbl c = some v →
      (∀ c', lookupBy (getBytesOp base tbl c').2 c = some v) ∧
      (∀ b code,
        lookupBy (putRawOp newFromCbor cidToBytes base tbl b code).2 c =
          some v)) ∧
    (∀ c, (lookupBy tbl c).isSome → (getBytesOp base tbl c).2 = tbl) ∧
    (∀ b code, (lookupBy tbl (newFromCbor b code)).isSome →
      (putRawOp newFromCbor cidToBytes base tbl b code).2 = tbl) ∧
    (∀ c, (getBytesOp base tbl c).2 = tbl ∨
      ∃ b, base.getBytes c = .ok (some b) ∧
        (getBytesOp base tbl c).2 = insertIfAbsent tbl c b) ∧
    (∀ k, (readOp base tbl k).2 = tbl) ∧
    (∀ k v, (writeOp base tbl k v).2 = tbl) ∧
    (∀ k, (deleteOp base tbl k).2 = tbl) ∧
    (∀ k, (existsOp base tbl k).2 = tbl) ∧
    (∀ ks, (bulkReadOp base tbl ks).2 = tbl) ∧
    (∀ kvs, (bulkWriteOp base tbl kvs).2 = tbl) ∧
    (∀ ks, (bulkDeleteOp base tbl ks).2 = tbl) := by
  refine ⟨?_, ?_, ?_, ?_, fun k => rfl, fun k v => rfl, fun k => rfl,
    fun k => rfl, fun ks => rfl, fun kvs => rfl, fun ks => rfl⟩
  · intro c v hv
    constructor
    · intro c'
      unfold getBytesOp
      match base.getBytes c' with
      | .error e => exact hv
      | .ok none => exact hv
      | .ok (some b) => exact lookupBy_insertIfAbsent_some c' b hv
    · intro b code
      cases hw : base.write (cidToBytes (newFromCbor b code)) b with
      | error e =>
        simp only [putRawOp, hw]
        exact lookupBy_insertIfAbsent_some _ b hv
      | ok u =>
        simp only [putRawOp, hw]
        exact lookupBy_insertIfAbsent_some _ b hv
  · intro c hc
    unfold getBytesOp
    match base.getBytes c with
    | .error e => rfl
    | .ok none => rfl
    | .ok (some b) => simp [insertIfAbsent, hc]
  · intro b code hc
    cases hw : base.write (cidToBytes (newFromCbor b code)) b with
    | error e => simp [putRawOp, hw, insertIfAbsent, hc]
    | ok u => simp [putRawOp, hw, insertIfAbsent, hc]
  · intro c
    unfold getBytesOp
    match hg : base.getBytes c with
    | .error e => exact Or.inl rfl
    | .ok none => exact Or.inl rfl
    | .ok (some b) => exact Or.inr ⟨b, rfl, rfl⟩

/-- A trivial concrete base store for closed-instance witnesses. -/
def exBase : BaseStore where
  getBytes := fun _ => .ok (some [7])
  read := fun _ => .ok none
  write := fun _ _ => .ok ()
  delete := fun _ => .ok ()
  existsKey := fun _ => .ok false
  bulkRead := fun _ => .ok []
  bulkWrite := fun _ => .ok ()
  bulkDelete := fun _ => .ok ()

/-- Witness for C7: a pre-existing entry survives a `get_bytes` of a
different CID. -/
theorem c7_witness :
    lookupBy (getBytesOp exBase [([1], [2])] [3]).2 [1] = some [2] :=
  ((c7_witness_table_mutations cidOfBytes cidBytes exBase [([1], [2])]).1
    [1] [2] (by simp [lookupBy])).1 [3]

/-- C8: the canonicality discipline of `cbor_read_header_buf`
(src/link_scanner.rs:106-151): for low codes 24/25/26/27 the decoded value
is rejected (an `Err`, modelled `none`) precisely when it was representable
in a smaller encoding — below 24, within `u8`, within `u16`, within `u32`
respectively — and otherwise the decoded `(major, value)` pair is returned;
a rejected header ends the scanner's sequence. -/
theorem c8_header_canonicality :
    (∀ (b v : Nat) (r : List Nat), b < 256 → v < 256 → b % 32 = 24 →
      cbor_read_header_buf (b :: v :: r) =
        if v < 24 then none else some ((b / 32, v), r)) ∧
    (∀ (b b1 b2 : Nat) (r : List Nat), b < 256 → b1 < 256 → b2 < 256 →
      b % 32 = 25 →
      cbor_read_header_buf (b :: b1 :: b2 :: r) =
        if b1 * 256 + b2 ≤ 255 then none
        else some ((b / 32, b1 * 256 + b2), r)) ∧
    (∀ (b b1 b2 b3 b4 : Nat) (r : List Nat), b < 256 → b1 < 256 →
      b2 < 256 → b3 < 256 → b4 < 256 → b % 32 = 26 →
      cbor_read_header_buf (b :: b1 :: b2 :: b3 :: b4 :: r) =
        if ((b1 * 256 + b2) * 256 + b3) * 256 + b4 ≤ 65535 then none
        else some ((b / 32, ((b1 * 256 + b2) * 256 + b3) * 256 + b4), r)) ∧
    (∀ (b b1 b2 b3 b4 b5 b6 b7 b8 : Nat) (r : List Nat), b < 256 →
      b1 < 256 → b2 < 256 → b3 < 256 → b4 < 256 → b5 < 256 → b6 < 256 →
      b7 < 256 → b8 < 256 → b % 32 = 27 →
      cbor_read_header_buf (b :: b1 :: b2 :: b3 :: b4 :: b5 :: b6 :: b7 ::
          b8 :: r) =
        if ((((((b1 * 256 + b2) * 256 + b3) * 256 + b4) * 256 + b5) * 256 +
            b6) * 256 + b7) * 256 + b8 ≤ 4294967295 then none
        else some ((b / 32, ((((((b1 * 256 + b2) * 256 + b3) * 256 + b4) *
          256 + b5) * 256 + b6) * 256 + b7) * 256 + b8), r)) ∧
    (∀ (cidTryFrom : Bytes → Option Cid) (rem : Nat) (bs : Bytes),
      cbor_read_header_buf bs = none →
      scannerNext cidTryFrom (rem + 1) bs = .done) := by
  refine ⟨?_, ?_, ?_, ?_, ?_⟩
  · intro b v r hb hv h24
    simp only [cbor_read_header_buf, Nat.mod_eq_of_lt hb, h24]
    norm_num [Nat.mod_eq_of_lt hv]
  · intro b b1 b2 r hb h1 h2 h25
    have hbe : beVal ((b1 :: b2 :: r).take 2) = b1 * 256 + b2 := by
      simp [beVal, Nat.mod_eq_of_lt h1, Nat.mod_eq_of_lt h2]
    have hlen : ¬((b1 :: b2 :: r).length < 2) := by simp
    simp only [cbor_read_header_buf, Nat.mod_eq_of_lt hb, h25, hbe, hlen,
      List.drop_succ_cons, List.drop_zero]
    norm_num
  · intro b b1 b2 b3 b4 r hb h1 h2 h3 h4 h26
    have hbe : beVal ((b1 :: b2 :: b3 :: b4 :: r).take 4) =
        ((b1 * 256 + b2) * 256 + b3) * 256 + b4 := by
      simp [beVal, Nat.mod_eq_of_lt h1, Nat.mod_eq_of_lt h2,
        Nat.mod_eq_of_lt h3, Nat.mod_eq_of_lt h4]
    have hlen : ¬((b1 :: b2 :: b3 :: b4 :: r).length < 4) := by simp
    simp only [cbor_read_header_buf, Nat.mod_eq_of_lt hb, h26, hbe, hlen,
      List.drop_succ_cons, List.drop_zero]
    norm_num
  · intro b b1 b2 b3 b4 b5 b6 b7 b8 r hb h1 h2 h3 h4 h5 h6 h7 h8 h27
    have hbe : beVal ((b1 :: b2 :: b3 :: b4 :: b5 :: b6 :: b7 :: b8 ::
        r).take 8) = ((((((b1 * 256 + b2) * 256 + b3) * 256 + b4) * 256 +
        b5) * 256 + b6) * 256 + b7) * 256 + b8 := by
      simp [beVal, Nat.mod_eq_of_lt h1, Nat.mod_eq_of_lt h2,
        Nat.mod_eq_of_lt h3, Nat.mod_eq_of_lt h4, Nat.mod_eq_of_lt h5,
        Nat.mod_eq_of_lt h6, Nat.mod_eq_of_lt h7, Nat.mod_eq_of_lt h8]
    have hlen : ¬((b1 :: b2 :: b3 :: b4 :: b5 :: b6 :: b7 :: b8 ::
        r).length < 8) := by simp
    simp only [cbor_read_header_buf, Nat.mod_eq_of_lt hb, h27, hbe, hlen,
      List.drop_succ_cons, List.drop_zero]
    norm_num
  · intro cidTryFrom rem bs h
    rw [scannerNext]
    simp only [Nat.succ_ne_zero, if_false]
    split
    · rfl
    · rename_i a b c heq
      rw [h] at heq
      cases heq

/-- Witness for C8: low 24 rejects value 10 and accepts value 100; low 25
rejects value 200; a rejected header ends the sequence. -/
theorem c8_header_canonicality_witness :
    cbor_read_header_buf [24, 10] = none ∧
    cbor_read_header_buf [24, 100, 7] = some ((0, 100), [7]) ∧
    cbor_read_header_buf [25, 0, 200] = none ∧
    scannerNext cidParse 1 [24, 10] = .done := by
  have h := c8_header_canonicality
  refine ⟨?_, ?_, ?_, ?_⟩
  · have := h.1 24 10 [] (by norm_num) (by norm_num) (by norm_num)
    simpa using this
  · have := h.1 24 100 [7] (by norm_num) (by norm_num) (by norm_num)
    simpa using this
  · have := h.2.1 25 0 200 [] (by norm_num) (by norm_num) (by norm_num)
      (by norm_num)
    simpa using this
  · have h0 : cbor_read_header_buf [24, 10] = none := by
      have := h.1 24 10 [] (by norm_num) (by norm_num) (by norm_num)
      simpa using this
    exact h.2.2.2.2 cidParse 0 [24, 10] h0

/-- C9: `put_raw` computes the CID of the bytes under the given code,
inserts first-writer-wins into the witness table, then persists to the
underlying store under key `cid.to_bytes()`; on success it returns the CID,
and a persistence failure propagates unchanged while the witness-table
insertion stands in either case. -/
theorem c9_put_raw_effects (newFromCbor : Bytes → Nat → Cid)
    (cidToBytes : Cid → Bytes) (base : BaseStore) (tbl : Table)
    (bytes : Bytes) (code : Nat) :
    (putRawOp newFromCbor cidToBytes base tbl bytes code).2 =
      insertIfAbsent tbl (newFromCbor bytes code) bytes ∧
    (putRawOp newFromCbor cidToBytes base tbl bytes code).1 =
      (match base.write (cidToBytes (newFromCbor bytes code)) bytes with
       | .error e => .error e
       | .ok _ => .ok (newFromCbor bytes code)) := by
  cases hw : base.write (cidToBytes (newFromCbor bytes code)) bytes with
  | error e => simp [putRawOp, hw]
  | ok u => simp [putRawOp, hw]

/-- C10: `generate_proof_raw` always hashes the supplied leaf bytes with the
single fixed default code (src/generator.rs:97), so bytes recorded through
`put_raw` under any code hashing differently are reported `NodeNotFound`
even though they sit in the witness table under their own CID. -/
theorem c10_nondefault_code_not_found (cidTryFrom : Bytes → Option Cid)
    (newFromCbor : Bytes → Nat → Cid) (defCode code : Nat)
    (cidToBytes : Cid → Bytes) (base : BaseStore) (bytes : Bytes)
    (root : Option Cid) (fuel : Nat)
    (hne : newFromCbor bytes code ≠ newFromCbor bytes defCode) :
    lookupBy (putRawOp newFromCbor cidToBytes base [] bytes code).2
      (newFromCbor bytes code) = some bytes ∧
    generateProofRaw cidTryFrom newFromCbor defCode
      (putRawOp newFromCbor cidToBytes base [] bytes code).2 bytes root
      fuel = .nodeNotFound := by
  have htbl : (putRawOp newFromCbor cidToBytes base [] bytes code).2 =
      [(newFromCbor bytes code, bytes)] := by
    cases hw : base.write (cidToBytes (newFromCbor bytes code)) bytes with
    | error e => simp [putRawOp, hw, insertIfAbsent, lookupBy]
    | ok u => simp [putRawOp, hw, insertIfAbsent, lookupBy]
  rw [htbl]
  refine ⟨by simp [lookupBy], ?_⟩
  simp [generateProofRaw, lookupBy, hne]

/-- Witness for C10: bytes `[5]` recorded under code 2 are present in the
table yet `generate_proof_raw` (hashing with the default code 1) fails. -/
theorem c10_nondefault_code_not_found_witness :
    generateProofRaw cidParse cidOfBytes 1
      (putRawOp cidOfBytes cidBytes exBase [] [5] 2).2 [5] none 3 =
      .nodeNotFound :=
  (c10_nondefault_code_not_found cidParse cidOfBytes 1 2 cidBytes exBase
    [5] none 3 (by simp [cidOfBytes])).2

end IpldProofs
